import Mathlib

/-!
Verification development for the SampleRNN data-preparation pipeline
(`samplernn/dataset.py` and `samplernn/utils.py`).

The Python code is shallowly embedded: machine floats become exact reals
(`ℝ`) or rationals (`ℚ`), numpy arrays become lists or entry functions,
and fallible operations return `Option` (`none` models a raised Python
exception, such as `list.index` raising `ValueError`).
-/

namespace SampleRNN

/-! ## AlignmentWindowEngine: `SampleRNNDataset._get_model_len`

`_get_model_len` computes `samples_per_forward = frame_size * sequence_length`
and then
  * truncating mode (`return_full_utterance = False`):
    `next_seq_length_mult = (n // spf) * spf`;
  * full-coverage mode: `next_seq_length_mult = ((n // spf) + 1) * spf`.
It returns `(next_seq_length_mult, next_seq_length_mult / frame_size)`; the
second component is exact because the first is a multiple of `frame_size`,
so natural division models the Python float division plus `int` cast. -/

def getModelLen (frameSize seqLen : ℕ) (returnFullUtterance : Bool) (n : ℕ) : ℕ × ℕ :=
  let spf := frameSize * seqLen
  let next := if returnFullUtterance then (n / spf + 1) * spf else (n / spf) * spf
  (next, next / frameSize)

/-! ## QuantizationCodec: `SampleRNNQuantizer` (dispatch level)

`__init__` sets `q_type = ULAW_QUANT if conf.quantizer['q_type_ulaw'] else
LINEAR_QUANT`; the configuration field is a boolean flag, so construction is
total.  `quantize`/`dequantize` dispatch on `q_type` and raise
`NotImplemented` on any other value (modelled by `none`). -/

def LINEAR_QUANT : ℕ := 0

def ULAW_QUANT : ℕ := 1

noncomputable section RealQuantizer

/-- `_EPSILON = 1e-2`, used by the linear strategy. -/
def EPSILON : ℝ := 1e-2

/-- `_EPSILONs = 1e-6`, used by the midrise mapping. -/
def EPSILONs : ℝ := 1e-6

/-- `_MU = 255.` -/
def MU : ℝ := 255

/-- `_LOG_MU1 = 5.5451774444795623`, the hard-coded double approximation of
`log 256` used by both companding directions. -/
def LOG_MU1 : ℝ := 5.5451774444795623

/-- Torch `.long()`: truncation toward zero. -/
def realTrunc (x : ℝ) : ℤ := if 0 ≤ x then ⌊x⌋ else -⌊-x⌋

/-- `ulaw`: `y = x.sign() * (255 * x.abs() + 1).log() / LOG_MU1`. -/
def ulaw (x : ℝ) : ℝ := Real.sign x * Real.log (MU * |x| + 1) / LOG_MU1

/-- `iulaw`: `y = c.sign() * ((c.abs() * LOG_MU1).exp() - 1) / 255`. -/
def iulaw (c : ℝ) : ℝ :=
  Real.sign c * (Real.exp (|c| * LOG_MU1) - 1) / MU

/-- `midrise`: `(0.5 * (x + 1) * (q_levels - 1e-6)).long()`. -/
def midrise (qLevels : ℕ) (x : ℝ) : ℤ := realTrunc (0.5 * (x + 1) * (qLevels - EPSILONs))

/-- `imidrise`: `xq * 2.0 / q_levels - 1.0`. -/
def imidrise (qLevels : ℕ) (xq : ℤ) : ℝ := (xq : ℝ) * 2 / (qLevels : ℝ) - 1

/-- `ulaw_quantize = midrise ∘ ulaw` applied per sample. -/
def ulawQuantize (qLevels : ℕ) (x : ℝ) : ℤ := midrise qLevels (ulaw x)

/-- `ulaw_dequantize = iulaw ∘ imidrise` applied per sample. -/
def ulawDequantize (qLevels : ℕ) (xq : ℤ) : ℝ := iulaw (imidrise qLevels xq)

/-- `quantize_zero`: `q_levels // 2`. -/
def quantizeZero (qLevels : ℕ) : ℕ := qLevels / 2

/-- Minimum of a tensor along its last dimension (`samples.min(dim=-1)[0]`),
restricted to one row. -/
def listMin : List ℝ → ℝ
  | [] => 0
  | x :: xs => xs.foldl min x

/-- Maximum of a tensor along its last dimension (`samples.max(dim=-1)[0]`),
restricted to one row. -/
def listMax : List ℝ → ℝ
  | [] => 0
  | x :: xs => xs.foldl max x

/-- The value `linear_quantize` divides by: the maximum of the sequence after
its own minimum has been subtracted.  The Python code has no guard against
this value being `0`. -/
def linearDivisor (xs : List ℝ) : ℝ := listMax (xs.map (· - listMin xs))

/-- `linear_quantize`:
`samples -= samples.min(...)`; `samples /= samples.max(...)`;
`samples *= q_levels - 1e-2`; `samples += 1e-2 / 2`; `samples.long()`. -/
def linearQuantize (qLevels : ℕ) (xs : List ℝ) : List ℤ :=
  let m := listMin xs
  let d := linearDivisor xs
  xs.map (fun v => realTrunc ((v - m) / d * ((qLevels : ℝ) - EPSILON) + EPSILON / 2))

/-- `linear_dequantize`: `samples / (q_levels / 2) - 1`. -/
def linearDequantize (qLevels : ℕ) (xq : ℤ) : ℝ := (xq : ℝ) / ((qLevels : ℝ) / 2) - 1

structure Quantizer where
  q_type : ℕ
  q_levels : ℕ

/-- `SampleRNNQuantizer.__init__`: the strategy configuration is the boolean
flag `conf.quantizer['q_type_ulaw']`. -/
def mkQuantizer (qTypeUlaw : Bool) (qLevels : ℕ) : Quantizer :=
  { q_type := if qTypeUlaw then ULAW_QUANT else LINEAR_QUANT, q_levels := qLevels }

/-- `SampleRNNQuantizer.quantize`: dispatch on `q_type`; the final branch
raises `NotImplemented` (`none`). -/
def Quantizer.quantize (q : Quantizer) (samples : List ℝ) : Option (List ℤ) :=
  if q.q_type = LINEAR_QUANT then some (linearQuantize q.q_levels samples)
  else if q.q_type = ULAW_QUANT then some (samples.map (ulawQuantize q.q_levels))
  else none

/-- `SampleRNNQuantizer.dequantize`: dispatch on `q_type`; the final branch
raises `NotImplemented` (`none`). -/
def Quantizer.dequantize (q : Quantizer) (samples : List ℤ) : Option (List ℝ) :=
  if q.q_type = LINEAR_QUANT then some (samples.map (linearDequantize q.q_levels))
  else if q.q_type = ULAW_QUANT then some (samples.map (ulawDequantize q.q_levels))
  else none

end RealQuantizer

/-! ## LinguisticSegmentExpander: `SampleRNNDataset._get_utterance_conds_linguistic`

A parsed `.lab` line is the tuple of regex groups, a list of strings.  The
Python code mutates a numpy string array in place:
  1. `lab_line[0] = int(lab_line[1]) - int(lab_line[0])` (duration);
  2. the ten categorical slots `2,3,4,5,6,27,31,33,41,49` are replaced by
     `sorted_vocabulary.index(value)`, which raises `ValueError` when the
     value is absent (modelled by `none`);
  3. after all lookups, entries still equal to the literal `'x'` are replaced
     by `0`, and the array is cast to float;
  4. `steps_n = (lab_line[0] * 10E-5) / 5` (note `10E-5 = 1e-4`), truncated
     to an integer by `np.repeat` / `np.linspace`;
  5. the record is normalized with the speaker statistics, repeated `steps_n`
     times, and column 1 is overwritten with `np.linspace(0, 1, num=steps_n)`.
The embedding computes the final numeric value of every slot directly, after
a guard that reproduces exactly the raise-on-vocabulary-miss behaviour. -/

/-- The four categorical vocabularies (`conds_linguistic_categories`). -/
inductive Cat
  | ph
  | vw
  | gp
  | tb
deriving DecidableEq

structure Vocab where
  phonemes : List String
  vowels : List String
  gpos : List String
  tobi : List String

def vocabOf (v : Vocab) : Cat → List String
  | .ph => v.phonemes
  | .vw => v.vowels
  | .gp => v.gpos
  | .tb => v.tobi

/-- Python `list.index`: position of the first occurrence, or a raised
`ValueError` (`none`) when the value is absent. -/
def vocabIndex : List String → String → Option ℕ
  | [], _ => none
  | a :: as, s => if a = s then some 0 else (vocabIndex as s).map (· + 1)

/-- Which vocabulary a slot of the lab record is looked up in
(lines 263-272 of `dataset.py`). -/
def slotCat (i : ℕ) : Option Cat :=
  if i = 2 ∨ i = 3 ∨ i = 4 ∨ i = 5 ∨ i = 6 then some .ph
  else if i = 27 then some .vw
  else if i = 31 ∨ i = 33 ∨ i = 41 then some .gp
  else if i = 49 then some .tb
  else none

def catSlotIdxs : List ℕ := [2, 3, 4, 5, 6, 27, 31, 33, 41, 49]

/-- All ten categorical lookups succeed (otherwise `list.index` raises). -/
def checkVocab (v : Vocab) (line : List String) : Bool :=
  catSlotIdxs.all fun i =>
    match slotCat i with
    | some c => (vocabIndex (vocabOf v c) (line.getD i "")).isSome
    | none => true

/-- Decimal digits accumulated left to right. -/
def parseNatAux : List Char → ℕ → Option ℕ
  | [], acc => some acc
  | c :: cs, acc =>
    if c.isDigit then parseNatAux cs (acc * 10 + (c.toNat - 48)) else none

/-- Python `int()` on the digit strings matched by the lab regex
(`([0-9]+)`). -/
def parseNat (s : String) : Option ℕ :=
  match s.data with
  | [] => none
  | cs => parseNatAux cs 0

/-- `int(lab_line[1]) - int(lab_line[0])`. -/
def durOf (line : List String) : ℤ :=
  ((((parseNat (line.getD 1 "")).getD 0 : ℕ) : ℤ)) -
    ((((parseNat (line.getD 0 "")).getD 0 : ℕ) : ℤ))

/-- Numeric value of a non-categorical field after the `'x' -> 0`
substitution and the float cast. -/
def ratOfField (s : String) : ℚ :=
  if s = "x" then 0 else (((parseNat s).getD 0 : ℕ) : ℚ)

/-- Final numeric value of slot `i` of the record, before normalization. -/
def fieldValD (v : Vocab) (line : List String) (i : ℕ) : ℚ :=
  if i = 0 then ((durOf line : ℤ) : ℚ)
  else
    match slotCat i with
    | some c => (((vocabIndex (vocabOf v c) (line.getD i "")).getD 0 : ℕ) : ℚ)
    | none => ratOfField (line.getD i "")

/-- Steps 1-3 above: the fully substituted numeric record, or `none` when a
categorical value is absent from its vocabulary. -/
def processLabLine (v : Vocab) (line : List String) : Option (List ℚ) :=
  if checkVocab v line then some ((List.range line.length).map (fieldValD v line)) else none

/-- Truncation toward zero, as applied by numpy to a float repetition
count. -/
def ratTrunc (q : ℚ) : ℤ := if 0 ≤ q then ⌊q⌋ else -⌊-q⌋

/-- `steps_n = (duration * 10E-5) / 5` truncated to an integer
(`10E-5` is the float `1e-4`). -/
def stepsOfDur (d : ℚ) : ℕ := (ratTrunc (d * (10 / 100000) / 5)).toNat

/-- Frame count the code derives for one lab line. -/
def codeSteps (line : List String) : ℕ := stepsOfDur ((durOf line : ℤ) : ℚ)

/-- The frame-count formula as the specification states it:
`floor(duration * 1e-5 / 5)`. -/
def specSteps (d : ℤ) : ℤ := ⌊(d : ℚ) * (1 / 100000) / 5⌋

/-- `np.linspace(0, 1, num = n)`: `n` evenly spaced values from 0 to 1;
`[0]` when `n = 1`, `[]` when `n = 0`. -/
def linspace (n : ℕ) : List ℚ :=
  if n = 0 then [] else if n = 1 then [0]
  else (List.range n).map fun i : ℕ => (i : ℚ) / ((n : ℚ) - 1)

/-- `(lab_line - mean) / std`, elementwise over the record. -/
def normalizeRec (mean std : List ℚ) (r : List ℚ) : List ℚ :=
  r.mapIdx fun i a => (a - mean.getD i 0) / (std.getD i 1)

/-- Steps 4-5 above: the per-frame block one lab line contributes. -/
def expandLine (v : Vocab) (mean std : List ℚ) (line : List String) :
    Option (List (List ℚ)) :=
  match processLabLine v line with
  | none => none
  | some r =>
    let steps := stepsOfDur (r.getD 0 0)
    let norm := normalizeRec mean std r
    some (List.zipWith (fun row t => row.set 1 t) (List.replicate steps norm) (linspace steps))

/-- The accumulation loop of `_get_utterance_conds_linguistic`:
`utterance_conds` starts as Python `None` (inner `none`) and each line's
block is appended; a vocabulary miss raises (outer `none`). -/
def expandLines (v : Vocab) (mean std : List ℚ) :
    Option (List (List ℚ)) → List (List String) → Option (Option (List (List ℚ)))
  | acc, [] => some acc
  | acc, l :: ls =>
    match expandLine v mean std l with
    | none => none
    | some b => expandLines v mean std (some (acc.getD [] ++ b)) ls

/-- `_get_utterance_conds_linguistic` over the parsed lab lines: the outer
`Option` models a raised exception, the inner one the Python value `None`
that is returned when the lab file has no lines. -/
def expandUtterance (v : Vocab) (mean std : List ℚ) (lines : List (List String)) :
    Option (Option (List (List ℚ))) :=
  expandLines v mean std none lines

/-- Row count of a conditioning matrix returned by the expander
(`None` has no shape; counted as 0 here). -/
def optRows (o : Option (List (List ℚ))) : ℕ := (o.getD []).length

/-- Row count of an `expandUtterance` result. -/
def rowsOfResult (e : Option (Option (List (List ℚ)))) : ℕ := optRows (e.getD none)

/-- Column 1 (the relative-duration feature) of a block. -/
def col1 (b : List (List ℚ)) : List ℚ := b.map fun row => row.getD 1 0

/-- Column 1 of an `expandLine` result. -/
def col1Of (e : Option (List (List ℚ))) : List ℚ := col1 (e.getD [])

/-! ## ConditioningFuser, `linguistic_lf0` mode (`__getitem__`, lines 125-134)

`utterance_conds_len = max(utterance_conds_len_model, linguistic.shape[0],
acoustic.shape[0])`; a zero matrix of that many rows and `utterance_size`
columns is created; linguistic features fill rows `< linguistic.shape[0]` of
all columns except the last two; the last two channels of the acoustic
stream fill the final two columns of rows `< acoustic.shape[0]`. -/

structure NMat where
  rows : ℕ
  cols : ℕ
  entry : ℕ → ℕ → ℚ

def zerosM (r c : ℕ) : NMat := ⟨r, c, fun _ _ => 0⟩

/-- `m[:rmax, c0:c1] = src` (numpy slice assignment; `src` is read with
column offset `c0`). -/
def sliceAssign (m : NMat) (rmax c0 c1 : ℕ) (src : ℕ → ℕ → ℚ) : NMat :=
  { m with entry := fun i j => if i < rmax ∧ c0 ≤ j ∧ j < c1 then src i (j - c0) else m.entry i j }

def fuseLingLf0 (targetFrames size : ℕ) (ling aco : NMat) : NMat :=
  let n := max (max targetFrames ling.rows) aco.rows
  let m0 := zerosM n size
  let m1 := sliceAssign m0 ling.rows 0 (size - 2) ling.entry
  sliceAssign m1 aco.rows (size - 2) size (fun i k => aco.entry i (aco.cols - 2 + k))

/-! ## Concrete fixtures

A minimal corpus vocabulary and the two annotation segments
`(start, end) = (0, 50000)` and `(50000, 250000)` of the specification's
end-to-end example, written as full 55-field records as produced by the lab
regex (55 capture groups). -/

def exVocab : Vocab := ⟨["p"], ["v"], ["g"], ["t"]⟩

def exSeg1 : List String :=
  ["0", "50000", "p", "p", "p", "p", "p", "0", "0", "0", "0", "0", "0", "0", "0", "0", "0", "0", "0", "0", "0", "0", "0", "0", "0", "0", "0", "v", "0", "0", "0", "g", "0", "g", "0", "0", "0", "0", "0", "0", "0", "g", "0", "0", "0", "0", "0", "0", "0", "t", "0", "0", "0", "0", "0"]

def exSeg2 : List String :=
  ["50000", "250000", "p", "p", "p", "p", "p", "0", "0", "0", "0", "0", "0", "0", "0", "0", "0", "0", "0", "0", "0", "0", "0", "0", "0", "0", "0", "v", "0", "0", "0", "g", "0", "g", "0", "0", "0", "0", "0", "0", "0", "g", "0", "0", "0", "0", "0", "0", "0", "t", "0", "0", "0", "0", "0"]

/-- A record with the unknown marker `'x'` in categorical slot 2 (while `'x'`
is absent from the phoneme vocabulary built for `exVocab`) and in the
non-categorical slot 9. -/
def exSegX : List String := (exSeg1.set 2 "x").set 9 "x"

/-- Speaker linguistic statistics: zero mean, unit scale. -/
def exMean : List ℚ := List.replicate 55 0

def exStd : List ℚ := List.replicate 55 1

/-! ## Helper lemmas about the linguistic expander -/

theorem linspace_length (n : ℕ) : (linspace n).length = n := by
  unfold linspace
  split
  · simp [*]
  · split
    · simp [*]
    · rw [List.length_map, List.length_range]

theorem processLabLine_getD0 (v : Vocab) (line : List String) (r : List ℚ)
    (h : processLabLine v line = some r) : r.getD 0 0 = ((durOf line : ℤ) : ℚ) := by
  unfold processLabLine at h
  split at h
  · cases h
    cases line with
    | nil =>
      show ((0 : ℚ)) = _
      have hd : durOf [] = 0 := by decide
      rw [hd]
      norm_num
    | cons a as =>
      simp only [List.length_cons, List.range_succ_eq_map, List.map_cons, List.getD_cons_zero]
      simp [fieldValD]
  · cases h

theorem expandLine_length (v : Vocab) (mean std : List ℚ) (line : List String)
    (b : List (List ℚ)) (h : expandLine v mean std line = some b) :
    b.length = codeSteps line := by
  unfold expandLine at h
  cases hp : processLabLine v line with
  | none => rw [hp] at h; cases h
  | some r =>
    rw [hp] at h
    cases h
    rw [List.length_zipWith, List.length_replicate, linspace_length,
      processLabLine_getD0 v line r hp]
    exact Nat.min_self _

theorem expandLine_isSome (v : Vocab) (mean std : List ℚ) (line : List String)
    (h : checkVocab v line = true) : ∃ b, expandLine v mean std line = some b := by
  unfold expandLine processLabLine
  rw [if_pos h]
  exact ⟨_, rfl⟩

theorem expandLines_rows (v : Vocab) (mean std : List ℚ) (ls : List (List String)) :
    ∀ (acc : Option (List (List ℚ))) (o : Option (List (List ℚ))),
      expandLines v mean std acc ls = some o →
      optRows o = optRows acc + (ls.map codeSteps).sum := by
  induction ls with
  | nil =>
    intro acc o h
    cases h
    simp
  | cons l ls ih =>
    intro acc o h
    unfold expandLines at h
    cases hb : expandLine v mean std l with
    | none => rw [hb] at h; cases h
    | some b =>
      rw [hb] at h
      have hrec := ih _ _ h
      rw [hrec, List.map_cons, List.sum_cons]
      have hlen := expandLine_length v mean std l b hb
      simp only [optRows, Option.getD_some, List.length_append, hlen]
      cases acc <;> (simp [optRows]; try omega)

theorem expandLines_isSome (v : Vocab) (mean std : List ℚ) (ls : List (List String)) :
    ∀ acc : Option (List (List ℚ)), (∀ l ∈ ls, checkVocab v l = true) →
      ∃ o, expandLines v mean std acc ls = some o := by
  induction ls with
  | nil => intro acc _; exact ⟨acc, rfl⟩
  | cons l ls ih =>
    intro acc h
    obtain ⟨b, hb⟩ := expandLine_isSome v mean std l (h l (by simp))
    obtain ⟨o, ho⟩ := ih (some (acc.getD [] ++ b)) (fun x hx => h x (by simp [hx]))
    refine ⟨o, ?_⟩
    unfold expandLines
    rw [hb]
    exact ho

theorem rows_of_expandUtterance (v : Vocab) (mean std : List ℚ)
    (lines : List (List String)) (h : ∀ l ∈ lines, checkVocab v l = true) :
    rowsOfResult (expandUtterance v mean std lines) = (lines.map codeSteps).sum := by
  obtain ⟨o, ho⟩ := expandLines_isSome v mean std lines none h
  unfold expandUtterance
  rw [ho]
  have := expandLines_rows v mean std lines none o ho
  simpa [rowsOfResult, optRows] using this

theorem processLabLine_length (v : Vocab) (line : List String) (r : List ℚ)
    (h : processLabLine v line = some r) : r.length = line.length := by
  unfold processLabLine at h
  split at h
  · cases h
    rw [List.length_map, List.length_range]
  · cases h

theorem getD_set_one (l : List ℚ) (t : ℚ) (h : 1 < l.length) : (l.set 1 t).getD 1 0 = t := by
  rw [List.getD_eq_getElem?_getD, List.getElem?_set_self h]
  simp

theorem col1_zipWith_set (row : List ℚ) (h2 : 2 ≤ row.length) :
    ∀ ts : List ℚ,
      col1 (List.zipWith (fun r t => r.set 1 t) (List.replicate ts.length row) ts) = ts := by
  intro ts
  induction ts with
  | nil => rfl
  | cons t ts ih =>
    simp only [List.length_cons, List.replicate_succ, List.zipWith_cons_cons, col1,
      List.map_cons]
    rw [getD_set_one row t (by omega)]
    exact congrArg (t :: ·) ih

theorem expandLine_col1 (v : Vocab) (mean std : List ℚ) (line : List String)
    (b : List (List ℚ)) (hb : expandLine v mean std line = some b)
    (hlen : 2 ≤ line.length) : col1 b = linspace (codeSteps line) := by
  unfold expandLine at hb
  cases hp : processLabLine v line with
  | none => rw [hp] at hb; cases hb
  | some r =>
    rw [hp] at hb
    cases hb
    have hsteps : stepsOfDur (r.getD 0 0) = codeSteps line := by
      rw [processLabLine_getD0 v line r hp]; rfl
    have hnorm : 2 ≤ (normalizeRec mean std r).length := by
      have : (normalizeRec mean std r).length = r.length := by
        unfold normalizeRec; simp
      rw [this, processLabLine_length v line r hp]
      exact hlen
    rw [hsteps]
    have := col1_zipWith_set (normalizeRec mean std r) hnorm (linspace (codeSteps line))
    rwa [linspace_length] at this

theorem expandLine_col1Of (v : Vocab) (mean std : List ℚ) (line : List String)
    (h : checkVocab v line = true) (hlen : 2 ≤ line.length) :
    col1Of (expandLine v mean std line) = linspace (codeSteps line) := by
  obtain ⟨b, hb⟩ := expandLine_isSome v mean std line h
  rw [hb]
  exact expandLine_col1 v mean std line b hb hlen

theorem linspace_pairwise (n : ℕ) : (linspace n).Pairwise (· < ·) := by
  unfold linspace
  split
  · simp
  · split
    · simp
    · refine (List.pairwise_lt_range n).map _ ?_
      intro a b hab
      have hn : (1 : ℚ) ≤ (n : ℚ) - 1 := by
        have : (2 : ℕ) ≤ n := by omega
        have h2 : (2 : ℚ) ≤ (n : ℚ) := by exact_mod_cast this
        linarith
      have hpos : (0 : ℚ) < (n : ℚ) - 1 := by linarith
      exact div_lt_div_of_pos_right (by exact_mod_cast hab) hpos

theorem linspace_head (n : ℕ) (h : 2 ≤ n) : (linspace n).head? = some 0 := by
  unfold linspace
  rw [if_neg (by omega), if_neg (by omega)]
  obtain ⟨m, rfl⟩ : ∃ m, n = m + 1 := ⟨n - 1, by omega⟩
  rw [List.range_succ_eq_map]
  simp

theorem linspace_getLast (n : ℕ) (h : 2 ≤ n) : (linspace n).getLast? = some 1 := by
  unfold linspace
  rw [if_neg (by omega), if_neg (by omega)]
  obtain ⟨m, rfl⟩ : ∃ m, n = m + 1 := ⟨n - 1, by omega⟩
  rw [List.range_succ, List.map_append, List.map_singleton, List.getLast?_concat,
    Option.some_inj, Nat.cast_add, Nat.cast_one]
  have hm : (m : ℚ) ≠ 0 := by
    have : (1 : ℕ) ≤ m := by omega
    exact_mod_cast Nat.one_le_iff_ne_zero.mp this
  field_simp

/-! ## Claims -/

/-- C10: for an utterance whose `.lab` file contains no lines, the loop body
of `_get_utterance_conds_linguistic` never runs, so the method returns the
Python value `None` (modelled by the inner `none`: no exception was raised
and no zero-row matrix is produced); any later use of the result's `.shape`
therefore fails. -/
theorem c10_empty_lab_returns_none (v : Vocab) (mean std : List ℚ) :
    expandUtterance v mean std [] = some none := rfl

/-- C1 counterexample: on the specification's example segments
`(0, 50000)` and `(50000, 250000)` the expander emits `5` rows, not `4`:
the code's step count (`duration * 10E-5 / 5` with `10E-5 = 1e-4`) gives
`1` and `4`, while the claimed formula `floor(duration * 1e-5 / 5)` gives
`0` for both durations, so it matches neither segment's contribution nor
the total. -/
theorem c1_counterexample :
    durOf exSeg1 = 50000 ∧ durOf exSeg2 = 200000 ∧
    codeSteps exSeg1 = 1 ∧ codeSteps exSeg2 = 4 ∧
    specSteps 50000 = 0 ∧ specSteps 200000 = 0 ∧
    rowsOfResult (expandUtterance exVocab exMean exStd [exSeg1, exSeg2]) = 5 ∧
    (5 : ℕ) ≠ 4 := by
  have hd1 : durOf exSeg1 = 50000 := by decide
  have hd2 : durOf exSeg2 = 200000 := by decide
  have h1 : codeSteps exSeg1 = 1 := by
    rw [codeSteps, hd1]; norm_num [stepsOfDur, ratTrunc]
  have h2 : codeSteps exSeg2 = 4 := by
    rw [codeSteps, hd2]
    have h4 : ratTrunc (((200000 : ℤ) : ℚ) * (10 / 100000) / 5) = 4 := by
      norm_num [ratTrunc]
    rw [stepsOfDur, h4]; rfl
  refine ⟨hd1, hd2, h1, h2, by norm_num [specSteps], by norm_num [specSteps], ?_, by decide⟩
  rw [rows_of_expandUtterance exVocab exMean exStd [exSeg1, exSeg2] (by decide)]
  rw [List.map_cons, List.map_cons, List.map_nil, h1, h2]
  rfl

/-- C1 (amended): whenever `_get_utterance_conds_linguistic` completes
without a vocabulary lookup error, the output matrix's total row count
equals the sum over the annotation records, in file order, of
`floor(duration * 1e-4 / 5)` (the code's `(duration * 10E-5) / 5` truncated
to an integer; the spec misprinted the constant as `1e-5`).  On the example
segments `(0, 50000)` and `(50000, 250000)` this is `1 + 4 = 5` rows, the
first segment contributing one row. -/
theorem c1_row_count (v : Vocab) (mean std : List ℚ) (lines : List (List String))
    (h : ∀ l ∈ lines, checkVocab v l = true) :
    rowsOfResult (expandUtterance v mean std lines) = (lines.map codeSteps).sum :=
  rows_of_expandUtterance v mean std lines h

theorem c1_row_count_witness :
    rowsOfResult (expandUtterance exVocab exMean exStd [exSeg1, exSeg2]) =
      ([exSeg1, exSeg2].map codeSteps).sum :=
  c1_row_count exVocab exMean exStd [exSeg1, exSeg2] (by decide)

/-- C2 counterexample: `exSegX` holds the unknown marker `'x'` in
categorical slot 2 and `'x'` is absent from the phoneme vocabulary; the
reader raises `ValueError` (`none`) instead of substituting `0`, because
the vocabulary lookups (lines 263-272) run before the `'x' -> 0`
substitution (line 275). -/
theorem c2_counterexample :
    exSegX.getD 2 "" = "x" ∧ vocabIndex exVocab.phonemes "x" = none ∧
    processLabLine exVocab exSegX = none := by decide

/-- C2 (amended): the `'x' -> 0` substitution happens after, not before,
vocabulary lookup.  Consequently any of the ten categorical slots
(`2,3,4,5,6` phonemes, `27` vowels, `31,33,41` gpos, `49` tobi) holding a
value absent from its vocabulary (including the unknown marker itself)
makes the reader raise a lookup error rather than fall back to index 0;
the substitution takes effect only on the fields that are not
vocabulary-encoded. -/
theorem c2_lookup_precedes_substitution (v : Vocab) (line : List String)
    (i : ℕ) (c : Cat) (hi : i ∈ catSlotIdxs) (hc : slotCat i = some c)
    (h : vocabIndex (vocabOf v c) (line.getD i "") = none) :
    processLabLine v line = none ∧
    (∀ j, j ≠ 0 → slotCat j = none → line.getD j "" = "x" → fieldValD v line j = 0) := by
  constructor
  · unfold processLabLine
    split
    · next hck =>
      exfalso
      have h3 := List.all_eq_true.mp hck i hi
      have h4 : (vocabIndex (vocabOf v c) (line.getD i "")).isSome = true := by
        rw [hc] at h3
        exact h3
      rw [h] at h4
      simp at h4
    · rfl
  · intro j hj0 hcat hx
    unfold fieldValD
    rw [if_neg hj0, hcat]
    show ratOfField (line.getD j "") = 0
    unfold ratOfField
    rw [if_pos hx]

theorem c2_lookup_precedes_substitution_witness :
    (2 ∈ catSlotIdxs ∧ slotCat 2 = some Cat.ph ∧
      vocabIndex (vocabOf exVocab Cat.ph) (exSegX.getD 2 "") = none) ∧
    processLabLine exVocab exSegX = none ∧ fieldValD exVocab exSegX 9 = 0 := by
  have h : vocabIndex (vocabOf exVocab Cat.ph) (exSegX.getD 2 "") = none := by decide
  have happ := c2_lookup_precedes_substitution exVocab exSegX 2 Cat.ph (by decide)
    (by decide) h
  exact ⟨⟨by decide, by decide, h⟩, happ.1, happ.2 9 (by decide) (by decide) (by decide)⟩

/-- C8 counterexample: the segment `(0, 50000)` has computed steps `1 ≥ 1`,
and its relative-duration column is `np.linspace(0, 1, num=1) = [0]`: the
value `1` is never attained, so the column is not a sequence from 0 to 1
inclusive of both endpoints. -/
theorem c8_counterexample :
    codeSteps exSeg1 = 1 ∧
    col1Of (expandLine exVocab exMean exStd exSeg1) = [0] ∧
    (1 : ℚ) ∉ col1Of (expandLine exVocab exMean exStd exSeg1) := by
  have hd1 : durOf exSeg1 = 50000 := by decide
  have h1 : codeSteps exSeg1 = 1 := by
    rw [codeSteps, hd1]; norm_num [stepsOfDur, ratTrunc]
  have hc := expandLine_col1Of exVocab exMean exStd exSeg1 (by decide) (by decide)
  rw [h1] at hc
  have hl : linspace 1 = [0] := by norm_num [linspace]
  rw [hl] at hc
  refine ⟨h1, hc, ?_⟩
  rw [hc]
  norm_num

/-- C8 (amended): for every segment whose computed steps is at least 2,
column 1 of its repeated block is `np.linspace(0, 1, num=steps)`: it starts
at 0, ends at 1 and is strictly increasing.  For steps equal to 1 the
column is the single value 0 (see the counterexample). -/
theorem c8_relative_duration_column (v : Vocab) (mean std : List ℚ) (line : List String)
    (h : checkVocab v line = true) (hlen : 2 ≤ line.length) (hsteps : 2 ≤ codeSteps line) :
    col1Of (expandLine v mean std line) = linspace (codeSteps line) ∧
    (col1Of (expandLine v mean std line)).head? = some 0 ∧
    (col1Of (expandLine v mean std line)).getLast? = some 1 ∧
    (col1Of (expandLine v mean std line)).Pairwise (· < ·) := by
  have hc := expandLine_col1Of v mean std line h hlen
  refine ⟨hc, ?_, ?_, ?_⟩
  · rw [hc]; exact linspace_head _ hsteps
  · rw [hc]; exact linspace_getLast _ hsteps
  · rw [hc]; exact linspace_pairwise _

theorem c8_relative_duration_column_witness :
    col1Of (expandLine exVocab exMean exStd exSeg2) = linspace (codeSteps exSeg2) ∧
    (col1Of (expandLine exVocab exMean exStd exSeg2)).getLast? = some 1 ∧
    linspace (codeSteps exSeg2) = [0, 1 / 3, 2 / 3, 1] := by
  have hd2 : durOf exSeg2 = 200000 := by decide
  have h2 : codeSteps exSeg2 = 4 := by
    rw [codeSteps, hd2]
    have h4 : ratTrunc (((200000 : ℤ) : ℚ) * (10 / 100000) / 5) = 4 := by
      norm_num [ratTrunc]
    rw [stepsOfDur, h4]; rfl
  have happ := c8_relative_duration_column exVocab exMean exStd exSeg2 (by decide) (by decide)
    (by rw [h2]; norm_num)
  refine ⟨happ.1, happ.2.2.1, ?_⟩
  rw [h2]
  norm_num [linspace, List.range_succ]

/-- C3: with `spf := frame_size * sequence_length`, truncating mode yields a
multiple of `spf` that is at most `n`, and full-coverage mode yields the
smallest multiple of `spf` strictly greater than `n` (hence `n + spf` when
`n` is itself a multiple); the frame count is the sample count divided by
`frame_size`. -/
theorem c3_alignment_window (frameSize seqLen n : ℕ)
    (hf : 0 < frameSize) (hs : 0 < seqLen) :
    (getModelLen frameSize seqLen false n).1 % (frameSize * seqLen) = 0 ∧
    (getModelLen frameSize seqLen false n).1 ≤ n ∧
    (getModelLen frameSize seqLen true n).1 % (frameSize * seqLen) = 0 ∧
    n < (getModelLen frameSize seqLen true n).1 ∧
    (∀ m, m % (frameSize * seqLen) = 0 → n < m →
      (getModelLen frameSize seqLen true n).1 ≤ m) ∧
    (n % (frameSize * seqLen) = 0 →
      (getModelLen frameSize seqLen true n).1 = n + frameSize * seqLen) ∧
    (∀ b : Bool, (getModelLen frameSize seqLen b n).2 =
      (getModelLen frameSize seqLen b n).1 / frameSize) := by
  have hspf : 0 < frameSize * seqLen := Nat.mul_pos hf hs
  set spf := frameSize * seqLen with hspfdef
  refine ⟨?_, ?_, ?_, ?_, ?_, ?_, ?_⟩
  · show (n / spf) * spf % spf = 0
    exact Nat.mul_mod_left _ _
  · show (n / spf) * spf ≤ n
    exact Nat.div_mul_le_self n spf
  · show (n / spf + 1) * spf % spf = 0
    exact Nat.mul_mod_left _ _
  · show n < (n / spf + 1) * spf
    calc n = spf * (n / spf) + n % spf := (Nat.div_add_mod n spf).symm
      _ < spf * (n / spf) + spf := Nat.add_lt_add_left (Nat.mod_lt n hspf) _
      _ = (n / spf + 1) * spf := by ring
  · intro m hm hnm
    show (n / spf + 1) * spf ≤ m
    have hdvd := Nat.dvd_of_mod_eq_zero hm
    have hq : n / spf < m / spf := by
      by_contra hcon
      push_neg at hcon
      have hle : m ≤ n :=
        calc m = m / spf * spf := (Nat.div_mul_cancel hdvd).symm
          _ ≤ n / spf * spf := Nat.mul_le_mul_right spf hcon
          _ ≤ n := Nat.div_mul_le_self n spf
      omega
    calc (n / spf + 1) * spf ≤ m / spf * spf := Nat.mul_le_mul_right spf hq
      _ = m := Nat.div_mul_cancel hdvd
  · intro hmod
    show (n / spf + 1) * spf = n + spf
    have hself : n / spf * spf = n := Nat.div_mul_cancel (Nat.dvd_of_mod_eq_zero hmod)
    calc (n / spf + 1) * spf = n / spf * spf + spf := by ring
      _ = n + spf := by rw [hself]
  · intro b
    cases b <;> rfl

theorem c3_alignment_window_witness :
    getModelLen 8 4 false 50 = (32, 4) ∧ getModelLen 8 4 true 50 = (64, 8) ∧
    (getModelLen 8 4 false 50).1 ≤ 50 ∧ (50 < (getModelLen 8 4 true 50).1 ∧
    (getModelLen 8 4 true 50).1 ≤ 64) := by
  have h := c3_alignment_window 8 4 50 (by norm_num) (by norm_num)
  exact ⟨by decide, by decide, h.2.1,
    h.2.2.2.1, h.2.2.2.2.1 64 (by decide) (by decide)⟩

/-- C7: the strategy configuration is the boolean flag `q_type_ulaw`, so
every construction yields one of the two recognized strategies (the
"unrecognized strategy" configuration error of the dispatch methods is
unreachable for a constructed codec) and `quantize`/`dequantize` never
raise the `NotImplemented` strategy error. -/
theorem c7_strategy_dispatch_total (b : Bool) (qLevels : ℕ) (s : List ℝ) (t : List ℤ) :
    ((mkQuantizer b qLevels).q_type = LINEAR_QUANT ∨
      (mkQuantizer b qLevels).q_type = ULAW_QUANT) ∧
    ((mkQuantizer b qLevels).quantize s).isSome = true ∧
    ((mkQuantizer b qLevels).dequantize t).isSome = true := by
  cases b <;>
    simp [mkQuantizer, Quantizer.quantize, Quantizer.dequantize, LINEAR_QUANT, ULAW_QUANT]

/-- C6: in `linguistic_lf0` mode the conditioning tensor has
`max(target_frames, linguistic_len, acoustic_len)` rows (not clipped to
`target_frames`); linguistic features occupy rows below `linguistic_len` of
all columns except the last two, the acoustic stream's last two channels
occupy the final two columns of rows below `acoustic_len`, and rows beyond
either source's native length are zero in that source's columns. -/
theorem c6_linguistic_lf0_fusion (targetFrames size : ℕ) (ling aco : NMat)
    (hsize : 2 ≤ size) :
    (fuseLingLf0 targetFrames size ling aco).rows =
      max targetFrames (max ling.rows aco.rows) ∧
    (∀ i j, i < ling.rows → j < size - 2 →
      (fuseLingLf0 targetFrames size ling aco).entry i j = ling.entry i j) ∧
    (∀ i k, i < aco.rows → k < 2 →
      (fuseLingLf0 targetFrames size ling aco).entry i (size - 2 + k) =
        aco.entry i (aco.cols - 2 + k)) ∧
    (∀ i j, ling.rows ≤ i → j < size - 2 →
      (fuseLingLf0 targetFrames size ling aco).entry i j = 0) ∧
    (∀ i k, aco.rows ≤ i → k < 2 →
      (fuseLingLf0 targetFrames size ling aco).entry i (size - 2 + k) = 0) := by
  refine ⟨?_, ?_, ?_, ?_, ?_⟩
  · show max (max targetFrames ling.rows) aco.rows = _
    exact Nat.max_assoc _ _ _
  · intro i j hi hj
    show (if i < aco.rows ∧ size - 2 ≤ j ∧ j < size then _
      else if i < ling.rows ∧ 0 ≤ j ∧ j < size - 2 then _ else (0 : ℚ)) = _
    rw [if_neg (by omega), if_pos ⟨hi, Nat.zero_le j, hj⟩]
    simp
  · intro i k hi hk
    show (if i < aco.rows ∧ size - 2 ≤ size - 2 + k ∧ size - 2 + k < size then _
      else _) = _
    rw [if_pos ⟨hi, Nat.le_add_right _ _, by omega⟩]
    have hsub : size - 2 + k - (size - 2) = k := by omega
    rw [hsub]
  · intro i j hi hj
    show (if i < aco.rows ∧ size - 2 ≤ j ∧ j < size then _
      else if i < ling.rows ∧ 0 ≤ j ∧ j < size - 2 then _ else (0 : ℚ)) = 0
    rw [if_neg (by omega), if_neg (by omega)]
  · intro i k hi hk
    show (if i < aco.rows ∧ size - 2 ≤ size - 2 + k ∧ size - 2 + k < size then _
      else if i < ling.rows ∧ 0 ≤ size - 2 + k ∧ size - 2 + k < size - 2 then _
      else (0 : ℚ)) = 0
    rw [if_neg (by omega), if_neg (by omega)]

/-- A 3-row linguistic stream of width 3 (`utterance_size - 2`). -/
def exLing : NMat := ⟨3, 3, fun i j => (i : ℚ) + (j : ℚ)⟩

/-- A 2-row acoustic stream of the usual width 43. -/
def exAco : NMat := ⟨2, 43, fun i j => (i : ℚ) * 100 + (j : ℚ)⟩

theorem c6_linguistic_lf0_fusion_witness :
    (fuseLingLf0 2 5 exLing exAco).rows = 3 ∧
    (fuseLingLf0 2 5 exLing exAco).entry 1 2 = 3 ∧
    (fuseLingLf0 2 5 exLing exAco).entry 1 (5 - 2 + 1) = 142 ∧
    (fuseLingLf0 2 5 exLing exAco).entry 2 (5 - 2 + 0) = 0 := by
  have h := c6_linguistic_lf0_fusion 2 5 exLing exAco (by norm_num)
  refine ⟨?_, ?_, ?_, ?_⟩
  · rw [h.1]; rfl
  · rw [h.2.1 1 2 (by norm_num [exLing]) (by norm_num)]
    norm_num [exLing]
  · rw [h.2.2.1 1 1 (by norm_num [exAco]) (by norm_num)]
    norm_num [exAco]
  · exact h.2.2.2.2 2 0 (by norm_num [exAco]) (by norm_num)

/-! ## Helper lemmas about per-sequence minima and maxima -/

theorem foldl_min_le_init (xs : List ℝ) : ∀ x : ℝ, xs.foldl min x ≤ x := by
  induction xs with
  | nil => intro x; exact le_refl x
  | cons y ys ih =>
    intro x
    exact le_trans (ih (min x y)) (min_le_left x y)

theorem foldl_min_le_mem (xs : List ℝ) : ∀ x a : ℝ, a ∈ xs → xs.foldl min x ≤ a := by
  induction xs with
  | nil => intro x a h; cases h
  | cons y ys ih =>
    intro x a h
    rcases List.mem_cons.mp h with heq | hmem
    · rw [heq]
      exact le_trans (foldl_min_le_init ys (min x y)) (min_le_right x y)
    · exact ih (min x y) a hmem

theorem init_le_foldl_max (xs : List ℝ) : ∀ x : ℝ, x ≤ xs.foldl max x := by
  induction xs with
  | nil => intro x; exact le_refl x
  | cons y ys ih =>
    intro x
    exact le_trans (le_max_left x y) (ih (max x y))

theorem mem_le_foldl_max (xs : List ℝ) : ∀ x a : ℝ, a ∈ xs → a ≤ xs.foldl max x := by
  induction xs with
  | nil => intro x a h; cases h
  | cons y ys ih =>
    intro x a h
    rcases List.mem_cons.mp h with heq | hmem
    · rw [heq]
      exact le_trans (le_max_right x y) (init_le_foldl_max ys (max x y))
    · exact ih (max x y) a hmem

theorem foldl_max_attained (xs : List ℝ) :
    ∀ x : ℝ, xs.foldl max x = x ∨ xs.foldl max x ∈ xs := by
  induction xs with
  | nil => intro x; exact Or.inl rfl
  | cons y ys ih =>
    intro x
    have hgoal : ys.foldl max (max x y) = x ∨ ys.foldl max (max x y) ∈ y :: ys := by
      rcases ih (max x y) with h | h
      · rcases max_choice x y with hc | hc
        · rw [h, hc]; exact Or.inl rfl
        · rw [h, hc]; exact Or.inr (List.mem_cons_self y ys)
      · exact Or.inr (List.mem_cons_of_mem y h)
    exact hgoal

theorem foldl_min_attained (xs : List ℝ) :
    ∀ x : ℝ, xs.foldl min x = x ∨ xs.foldl min x ∈ xs := by
  induction xs with
  | nil => intro x; exact Or.inl rfl
  | cons y ys ih =>
    intro x
    have hgoal : ys.foldl min (min x y) = x ∨ ys.foldl min (min x y) ∈ y :: ys := by
      rcases ih (min x y) with h | h
      · rcases min_choice x y with hc | hc
        · rw [h, hc]; exact Or.inl rfl
        · rw [h, hc]; exact Or.inr (List.mem_cons_self y ys)
      · exact Or.inr (List.mem_cons_of_mem y h)
    exact hgoal

theorem listMin_le (xs : List ℝ) (a : ℝ) (ha : a ∈ xs) : listMin xs ≤ a := by
  cases xs with
  | nil => cases ha
  | cons x ys =>
    show ys.foldl min x ≤ a
    rcases List.mem_cons.mp ha with heq | h
    · rw [heq]; exact foldl_min_le_init ys x
    · exact foldl_min_le_mem ys x a h

theorem le_listMax (xs : List ℝ) (a : ℝ) (ha : a ∈ xs) : a ≤ listMax xs := by
  cases xs with
  | nil => cases ha
  | cons x ys =>
    show a ≤ ys.foldl max x
    rcases List.mem_cons.mp ha with heq | h
    · rw [heq]; exact init_le_foldl_max ys x
    · exact mem_le_foldl_max ys x a h

theorem listMax_attained (xs : List ℝ) (h : xs ≠ []) : listMax xs ∈ xs := by
  cases xs with
  | nil => exact absurd rfl h
  | cons x ys =>
    show ys.foldl max x ∈ x :: ys
    rcases foldl_max_attained ys x with he | he
    · rw [he]; exact List.mem_cons_self x ys
    · exact List.mem_cons_of_mem x he

theorem listMin_attained (xs : List ℝ) (h : xs ≠ []) : listMin xs ∈ xs := by
  cases xs with
  | nil => exact absurd rfl h
  | cons x ys =>
    show ys.foldl min x ∈ x :: ys
    rcases foldl_min_attained ys x with he | he
    · rw [he]; exact List.mem_cons_self x ys
    · exact List.mem_cons_of_mem x he

/-- C9: `linear_quantize` divides each sequence by its own
post-min-subtraction maximum with no guard.  When the sequence has two
distinct values that divisor is positive and every output symbol lies in
`[0, levels)`; when the sequence is constant the divisor is exactly `0`,
so the Python computation divides by zero (its float result is undefined). -/
theorem c9_linear_quantize_guard (qLevels : ℕ) (xs : List ℝ) (hL : 1 ≤ qLevels) :
    ((∃ a ∈ xs, ∃ b ∈ xs, a ≠ b) →
      0 < linearDivisor xs ∧
      ∀ q ∈ linearQuantize qLevels xs, 0 ≤ q ∧ q < (qLevels : ℤ)) ∧
    (∀ c : ℝ, xs ≠ [] → (∀ v ∈ xs, v = c) → linearDivisor xs = 0) := by
  constructor
  · rintro ⟨a, ha, b, hb, hab⟩
    have hma := listMin_le xs a ha
    have hmb := listMin_le xs b hb
    have hcmem : max a b ∈ xs := by
      rcases max_choice a b with hc | hc <;> rw [hc] <;> assumption
    have hmlt : listMin xs < max a b := by
      rcases lt_or_eq_of_le hma with h | h
      · exact lt_of_lt_of_le h (le_max_left a b)
      · have hblt : listMin xs < b := lt_of_le_of_ne hmb (h ▸ hab)
        exact lt_of_lt_of_le hblt (le_max_right a b)
    have hdpos : 0 < linearDivisor xs := by
      have hmem2 : max a b - listMin xs ∈ xs.map (· - listMin xs) :=
        List.mem_map_of_mem _ hcmem
      have := le_listMax _ _ hmem2
      have hpos : 0 < max a b - listMin xs := sub_pos.mpr hmlt
      exact lt_of_lt_of_le hpos this
    refine ⟨hdpos, ?_⟩
    intro q hq
    unfold linearQuantize at hq
    rw [List.mem_map] at hq
    obtain ⟨v, hv, rfl⟩ := hq
    have hv0 : 0 ≤ v - listMin xs := sub_nonneg.mpr (listMin_le xs v hv)
    have hvd : v - listMin xs ≤ linearDivisor xs :=
      le_listMax _ _ (List.mem_map_of_mem _ hv)
    have ht0 : 0 ≤ (v - listMin xs) / linearDivisor xs := div_nonneg hv0 (le_of_lt hdpos)
    have ht1 : (v - listMin xs) / linearDivisor xs ≤ 1 :=
      (div_le_one hdpos).mpr hvd
    have hL1 : (1 : ℝ) ≤ (qLevels : ℝ) := by exact_mod_cast hL
    have hargl : EPSILON / 2 ≤ (v - listMin xs) / linearDivisor xs *
        ((qLevels : ℝ) - EPSILON) + EPSILON / 2 := by
      have : 0 ≤ (v - listMin xs) / linearDivisor xs * ((qLevels : ℝ) - EPSILON) := by
        apply mul_nonneg ht0
        rw [EPSILON]; linarith
      linarith
    have hargu : (v - listMin xs) / linearDivisor xs * ((qLevels : ℝ) - EPSILON) +
        EPSILON / 2 ≤ (qLevels : ℝ) - EPSILON / 2 := by
      have hmle : (v - listMin xs) / linearDivisor xs * ((qLevels : ℝ) - EPSILON) ≤
          (qLevels : ℝ) - EPSILON := by
        have hnn : (0 : ℝ) ≤ (qLevels : ℝ) - EPSILON := by rw [EPSILON]; linarith
        calc (v - listMin xs) / linearDivisor xs * ((qLevels : ℝ) - EPSILON)
            ≤ 1 * ((qLevels : ℝ) - EPSILON) := mul_le_mul_of_nonneg_right ht1 hnn
          _ = (qLevels : ℝ) - EPSILON := one_mul _
      linarith
    have harg0 : (0 : ℝ) ≤ (v - listMin xs) / linearDivisor xs *
        ((qLevels : ℝ) - EPSILON) + EPSILON / 2 := by
      have : (0 : ℝ) < EPSILON / 2 := by rw [EPSILON]; norm_num
      linarith
    rw [realTrunc, if_pos harg0]
    constructor
    · exact Int.floor_nonneg.mpr harg0
    · rw [Int.floor_lt]
      push_cast
      have : (qLevels : ℝ) - EPSILON / 2 < (qLevels : ℝ) := by rw [EPSILON]; linarith
      linarith
  · intro c hne hconst
    have hmin : listMin xs = c := hconst _ (listMin_attained xs hne)
    have hmapne : xs.map (· - listMin xs) ≠ [] := by
      cases xs with
      | nil => exact absurd rfl hne
      | cons x ys => simp
    have hmem := listMax_attained _ hmapne
    rw [List.mem_map] at hmem
    obtain ⟨v, hv, heq⟩ := hmem
    have : v = c := hconst v hv
    unfold linearDivisor
    rw [← heq, this, hmin, sub_self]

theorem c9_linear_quantize_guard_witness :
    linearQuantize 4 [0, 1] = [0, 3] ∧ ((0 : ℤ) ≤ 3 ∧ (3 : ℤ) < (4 : ℕ)) ∧
    linearDivisor [2, 2] = 0 := by
  have hmin : listMin [0, 1] = (0 : ℝ) := by
    show min (0 : ℝ) 1 = 0
    norm_num
  have hdiv : linearDivisor [0, 1] = 1 := by
    unfold linearDivisor
    rw [hmin]
    show max ((0 : ℝ) - 0) (1 - 0) = 1
    norm_num
  have hq : linearQuantize 4 [0, 1] = [0, 3] := by
    have e1 : ((0 : ℝ) - 0) / 1 * (((4 : ℕ) : ℝ) - EPSILON) + EPSILON / 2 =
        5 / 1000 := by
      rw [EPSILON]; norm_num
    have e2 : ((1 : ℝ) - 0) / 1 * (((4 : ℕ) : ℝ) - EPSILON) + EPSILON / 2 =
        3 + 995 / 1000 := by
      rw [EPSILON]; push_cast; norm_num
    have f1 : realTrunc (5 / 1000) = 0 := by
      rw [realTrunc, if_pos (by norm_num : (0 : ℝ) ≤ 5 / 1000)]
      exact Int.floor_eq_zero_iff.mpr ⟨by norm_num, by norm_num⟩
    have f2 : realTrunc (3 + 995 / 1000) = 3 := by
      rw [realTrunc, if_pos (by norm_num : (0 : ℝ) ≤ 3 + 995 / 1000)]
      exact Int.floor_eq_iff.mpr ⟨by norm_num, by norm_num⟩
    unfold linearQuantize
    rw [hmin, hdiv]
    simp only [List.map_cons, List.map_nil]
    rw [e1, e2, f1, f2]
  refine ⟨hq, ?_, ?_⟩
  · have h := (c9_linear_quantize_guard 4 [0, 1] (by norm_num)).1
      ⟨0, by simp, 1, by simp, by norm_num⟩
    exact h.2 3 (by rw [hq]; simp)
  · exact (c9_linear_quantize_guard 4 [2, 2] (by norm_num)).2 2 (by simp)
      (by intro v hv
          rcases List.mem_cons.mp hv with h1 | hv2
          · exact h1
          · rcases List.mem_cons.mp hv2 with h2 | hv3
            · exact h2
            · cases hv3)

/-! ## Helper lemmas about the exponential -/

theorem exp_nat_le (a : ℕ) : Real.exp (a : ℝ) ≤ 2.7182818286 ^ a := by
  have h1 : Real.exp ((a : ℝ)) = Real.exp 1 ^ a := by
    rw [← Real.exp_nat_mul]
    norm_num
  rw [h1]
  exact pow_le_pow_left (Real.exp_pos 1).le (le_of_lt Real.exp_one_lt_d9) a

theorem exp_le_of_le_nat (x : ℝ) (a : ℕ) (h : x ≤ (a : ℝ)) :
    Real.exp x ≤ 2.7182818286 ^ a :=
  le_trans (Real.exp_le_exp.mpr h) (exp_nat_le a)

/-- `exp x ≤ 1 / (1 - x)` for `x < 1`. -/
theorem exp_le_inv_one_sub (x : ℝ) (hx : x < 1) : Real.exp x ≤ 1 / (1 - x) := by
  have hpos : 0 < 1 - x := by linarith
  have h1 := Real.add_one_le_exp (-x)
  rw [Real.exp_neg] at h1
  have h2 : 1 - x ≤ (Real.exp x)⁻¹ := by linarith
  have h3 := one_div_le_one_div_of_le hpos h2
  rwa [one_div, inv_inv] at h3

/-- The key numeric bound behind C5: for every positive integer `L`,
`exp (LOG_MU1 / L) - 1 ≤ 510 / L`. -/
theorem exp_ratio_bound (L : ℕ) (hL : 1 ≤ L) :
    Real.exp (LOG_MU1 / (L : ℝ)) - 1 ≤ 510 / (L : ℝ) := by
  have hLpos : (0 : ℝ) < (L : ℝ) := by exact_mod_cast hL
  by_cases h6 : 6 ≤ L
  · have hy6 : (6 : ℝ) ≤ (L : ℝ) := by exact_mod_cast h6
    have hClt : LOG_MU1 < (L : ℝ) := by rw [LOG_MU1]; norm_num; linarith
    have hx1 : LOG_MU1 / (L : ℝ) < 1 := (div_lt_one hLpos).mpr hClt
    have hexp := exp_le_inv_one_sub (LOG_MU1 / (L : ℝ)) hx1
    have hsub : 1 - LOG_MU1 / (L : ℝ) = ((L : ℝ) - LOG_MU1) / (L : ℝ) := by
      field_simp
    have hdenpos : 0 < (L : ℝ) - LOG_MU1 := by linarith
    have hfrac : 1 / (1 - LOG_MU1 / (L : ℝ)) - 1 = LOG_MU1 / ((L : ℝ) - LOG_MU1) := by
      rw [hsub, one_div_div]
      field_simp
    have hmain : LOG_MU1 / ((L : ℝ) - LOG_MU1) ≤ 510 / (L : ℝ) := by
      rw [div_le_div_iff hdenpos hLpos, LOG_MU1]
      nlinarith [mul_nonneg (sub_nonneg.mpr hy6)
        (by norm_num : (0 : ℝ) ≤ 510 - 5.5451774444795623)]
    calc Real.exp (LOG_MU1 / (L : ℝ)) - 1 ≤ 1 / (1 - LOG_MU1 / (L : ℝ)) - 1 := by
          linarith
      _ = LOG_MU1 / ((L : ℝ) - LOG_MU1) := hfrac
      _ ≤ 510 / (L : ℝ) := hmain
  · push_neg at h6
    interval_cases L
    · have h := exp_le_of_le_nat (LOG_MU1 / ((1 : ℕ) : ℝ)) 6 (by rw [LOG_MU1]; norm_num)
      have hb : (2.7182818286 : ℝ) ^ (6 : ℕ) ≤ 511 := by norm_num
      push_cast at h ⊢
      linarith
    · have h := exp_le_of_le_nat (LOG_MU1 / ((2 : ℕ) : ℝ)) 3 (by rw [LOG_MU1]; norm_num)
      have hb : (2.7182818286 : ℝ) ^ (3 : ℕ) ≤ 256 := by norm_num
      push_cast at h ⊢
      linarith
    · have h := exp_le_of_le_nat (LOG_MU1 / ((3 : ℕ) : ℝ)) 2 (by rw [LOG_MU1]; norm_num)
      have hb : (2.7182818286 : ℝ) ^ (2 : ℕ) ≤ 171 := by norm_num
      push_cast at h ⊢
      linarith
    · have h := exp_le_of_le_nat (LOG_MU1 / ((4 : ℕ) : ℝ)) 2 (by rw [LOG_MU1]; norm_num)
      have hb : (2.7182818286 : ℝ) ^ (2 : ℕ) ≤ 128 := by norm_num
      push_cast at h ⊢
      linarith
    · have h := exp_le_of_le_nat (LOG_MU1 / ((5 : ℕ) : ℝ)) 2 (by rw [LOG_MU1]; norm_num)
      have hb : (2.7182818286 : ℝ) ^ (2 : ℕ) ≤ 103 := by norm_num
      push_cast at h ⊢
      linarith

/-- C5: `zero_symbol()` is `levels // 2` (integer division), and under
mu-law the dequantized value of that symbol is within one quantization step
(`2 / levels`) of silence: for even `levels` it is exactly `0`, for odd
`levels` it is `iulaw (-1 / levels)`, whose magnitude is bounded by
`(exp (LOG_MU1 / levels) - 1) / 255 ≤ 2 / levels`. -/
theorem c5_zero_symbol_near_silence (qLevels : ℕ) (h : 0 < qLevels) :
    quantizeZero qLevels = qLevels / 2 ∧
    |ulawDequantize qLevels ((quantizeZero qLevels : ℕ) : ℤ)| ≤ 2 / (qLevels : ℝ) := by
  have hLpos : (0 : ℝ) < (qLevels : ℝ) := by exact_mod_cast h
  refine ⟨rfl, ?_⟩
  rcases Nat.even_or_odd qLevels with ⟨k, hk⟩ | ⟨k, hk⟩
  · have hkpos : 0 < k := by omega
    have h2 : quantizeZero qLevels = k := by unfold quantizeZero; omega
    have hkR : (0 : ℝ) < (k : ℝ) := by exact_mod_cast hkpos
    have hc : imidrise qLevels ((quantizeZero qLevels : ℕ) : ℤ) = 0 := by
      unfold imidrise
      rw [h2, hk]
      push_cast
      field_simp
      ring
    unfold ulawDequantize
    rw [hc]
    have hiz : iulaw 0 = 0 := by
      unfold iulaw
      rw [Real.sign_zero]
      ring
    rw [hiz, abs_zero]
    positivity
  · have h2 : quantizeZero qLevels = k := by unfold quantizeZero; omega
    have hc : imidrise qLevels ((quantizeZero qLevels : ℕ) : ℤ) =
        -1 / (qLevels : ℝ) := by
      unfold imidrise
      rw [h2, hk]
      have hne : ((2 * k + 1 : ℕ) : ℝ) ≠ 0 := by positivity
      push_cast at hne ⊢
      field_simp
      ring
    unfold ulawDequantize
    rw [hc]
    have hneg : -1 / (qLevels : ℝ) < 0 := by
      apply div_neg_of_neg_of_pos <;> [norm_num; exact hLpos]
    have habs : |(-1 : ℝ) / (qLevels : ℝ)| = 1 / (qLevels : ℝ) := by
      rw [abs_div, abs_neg, abs_one, abs_of_pos hLpos]
    have hCpos : (0 : ℝ) < LOG_MU1 := by rw [LOG_MU1]; norm_num
    have hiv : iulaw (-1 / (qLevels : ℝ)) =
        -((Real.exp (LOG_MU1 / (qLevels : ℝ)) - 1) / MU) := by
      unfold iulaw
      rw [Real.sign_of_neg hneg, habs, one_div, inv_mul_eq_div]
      ring
    rw [hiv, abs_neg, abs_div]
    have hexp1 : (1 : ℝ) ≤ Real.exp (LOG_MU1 / (qLevels : ℝ)) := by
      have harg : (0 : ℝ) ≤ LOG_MU1 / (qLevels : ℝ) := by positivity
      have := Real.add_one_le_exp (LOG_MU1 / (qLevels : ℝ))
      linarith
    have habs2 : |Real.exp (LOG_MU1 / (qLevels : ℝ)) - 1| =
        Real.exp (LOG_MU1 / (qLevels : ℝ)) - 1 := abs_of_nonneg (by linarith)
    have habsMU : |MU| = 255 := by rw [MU]; norm_num
    rw [habs2, habsMU]
    have hbound := exp_ratio_bound qLevels h
    rw [le_div_iff hLpos] at hbound
    rw [div_le_div_iff (by norm_num : (0 : ℝ) < 255) hLpos]
    linarith

theorem c5_zero_symbol_near_silence_witness :
    quantizeZero 256 = 128 ∧
    |ulawDequantize 256 ((quantizeZero 256 : ℕ) : ℤ)| ≤ 2 / ((256 : ℕ) : ℝ) := by
  have h := c5_zero_symbol_near_silence 256 (by norm_num)
  exact ⟨rfl, h.2⟩

/-! ## Sharp bounds on `log 2` relative to the hard-coded companding constant

`LOG_MU1 = 5.5451774444795623` is the double-precision value of `log 256`;
it differs from the true `log 256 = 8 log 2` by about `1.75e-16`.  The
nine-digit library bounds are too coarse to locate `LOG_MU1` relative to
`log 256`, so sharper bounds are derived from the Mercator series with 60
terms. -/

theorem log_two_lt_sharp : Real.log 2 < 0.693147180559945312 := by
  have t : |(2⁻¹ : ℝ)| < 1 := by
    rw [show |(2⁻¹ : ℝ)| = 2⁻¹ by rw [abs_of_pos]; norm_num]; norm_num
  have z := Real.abs_log_sub_add_sum_range_le t 60
  rw [show (1 : ℝ) - 2⁻¹ = 2⁻¹ by norm_num, Real.log_inv,
    show |(2⁻¹ : ℝ)| = 2⁻¹ by rw [abs_of_pos]; norm_num] at z
  have z2 := abs_le.mp z
  have hS : (∑ i ∈ Finset.range 60, (2⁻¹ : ℝ) ^ (i + 1) / (i + 1)) +
      (2⁻¹ : ℝ) ^ (60 + 1) / (1 - 2⁻¹) < 0.693147180559945312 := by
    simp only [Finset.sum_range_succ, Finset.sum_range_zero]
    norm_num
  linarith [z2.1]

theorem log_two_gt_sharp : 0.693147180559945308 < Real.log 2 := by
  have t : |(2⁻¹ : ℝ)| < 1 := by
    rw [show |(2⁻¹ : ℝ)| = 2⁻¹ by rw [abs_of_pos]; norm_num]; norm_num
  have z := Real.abs_log_sub_add_sum_range_le t 60
  rw [show (1 : ℝ) - 2⁻¹ = 2⁻¹ by norm_num, Real.log_inv,
    show |(2⁻¹ : ℝ)| = 2⁻¹ by rw [abs_of_pos]; norm_num] at z
  have z2 := abs_le.mp z
  have hS : (0.693147180559945308 : ℝ) <
      (∑ i ∈ Finset.range 60, (2⁻¹ : ℝ) ^ (i + 1) / (i + 1)) -
      (2⁻¹ : ℝ) ^ (60 + 1) / (1 - 2⁻¹) := by
    simp only [Finset.sum_range_succ, Finset.sum_range_zero]
    norm_num
  linarith [z2.2]

theorem log_256_eq : Real.log 256 = 8 * Real.log 2 := by
  rw [show (256 : ℝ) = 2 ^ 8 by norm_num, Real.log_pow]
  push_cast
  ring

theorem LOG_MU1_pos : (0 : ℝ) < LOG_MU1 := by rw [LOG_MU1]; norm_num

theorem LOG_MU1_lt_log_256 : LOG_MU1 < Real.log 256 := by
  rw [log_256_eq, LOG_MU1]
  linarith [log_two_gt_sharp]

theorem log_256_lt_U : Real.log 256 < 5.545177444479562496 := by
  rw [log_256_eq]
  linarith [log_two_lt_sharp]

/-- The companding overshoot: `ulaw` maps `[-1, 1]` into
`[-ystar, ystar]` with `ystar = log 256 / LOG_MU1`, which exceeds `1` by
less than `4e-17` because the hard-coded constant is slightly below
`log 256`. -/
theorem ystar_le : Real.log 256 / LOG_MU1 ≤ 1 + 4e-17 := by
  rw [div_le_iff LOG_MU1_pos, LOG_MU1]
  norm_num
  linarith [log_256_lt_U]

theorem one_le_ystar : 1 ≤ Real.log 256 / LOG_MU1 := by
  rw [le_div_iff LOG_MU1_pos, one_mul]
  exact le_of_lt LOG_MU1_lt_log_256

/-! ## Algebraic lemmas about the companding pair -/

theorem ulaw_neg_arg (x : ℝ) : ulaw (-x) = -ulaw x := by
  unfold ulaw
  rw [Real.sign_neg, abs_neg]
  ring

theorem iulaw_neg_arg (c : ℝ) : iulaw (-c) = -iulaw c := by
  unfold iulaw
  rw [Real.sign_neg, abs_neg]
  ring

theorem iulaw_zero : iulaw 0 = 0 := by
  unfold iulaw
  rw [Real.sign_zero]
  ring

theorem iulaw_of_nonneg (c : ℝ) (h : 0 ≤ c) :
    iulaw c = (Real.exp (c * LOG_MU1) - 1) / 255 := by
  rcases eq_or_lt_of_le h with heq | hlt
  · rw [← heq, iulaw_zero, zero_mul, Real.exp_zero]
    norm_num
  · unfold iulaw
    rw [Real.sign_of_pos hlt, abs_of_pos hlt, MU]
    ring

theorem iulaw_nonneg (c : ℝ) (h : 0 ≤ c) : 0 ≤ iulaw c := by
  rw [iulaw_of_nonneg c h]
  have h1 : (1 : ℝ) ≤ Real.exp (c * LOG_MU1) := by
    have := Real.add_one_le_exp (c * LOG_MU1)
    have hnn : 0 ≤ c * LOG_MU1 := mul_nonneg h LOG_MU1_pos.le
    linarith
  linarith [h1]

theorem iulaw_ulaw_pos (x : ℝ) (hx : 0 < x) : iulaw (ulaw x) = x := by
  have hargpos : (0 : ℝ) < MU * |x| + 1 := by
    rw [MU, abs_of_pos hx]; nlinarith
  have harg1 : (1 : ℝ) < MU * |x| + 1 := by
    rw [MU, abs_of_pos hx]; nlinarith
  have hu : ulaw x = Real.log (MU * |x| + 1) / LOG_MU1 := by
    unfold ulaw
    rw [Real.sign_of_pos hx, one_mul]
  have hupos : 0 ≤ ulaw x := by
    rw [hu]
    exact div_nonneg (Real.log_nonneg harg1.le) LOG_MU1_pos.le
  rw [iulaw_of_nonneg _ hupos, hu,
    div_mul_cancel₀ _ (ne_of_gt LOG_MU1_pos), Real.exp_log hargpos, MU,
    abs_of_pos hx]
  ring

theorem iulaw_ulaw (x : ℝ) : iulaw (ulaw x) = x := by
  rcases lt_trichotomy x 0 with hx | hx | hx
  · have hpos := iulaw_ulaw_pos (-x) (by linarith)
    rw [ulaw_neg_arg, iulaw_neg_arg] at hpos
    linarith
  · rw [hx]
    have hu : ulaw 0 = 0 := by unfold ulaw; rw [Real.sign_zero]; ring
    rw [hu, iulaw_zero]
  · exact iulaw_ulaw_pos x hx

theorem ulaw_abs_le (x : ℝ) (hx : |x| ≤ 1) :
    |ulaw x| ≤ Real.log 256 / LOG_MU1 := by
  have hsign : |Real.sign x| ≤ 1 := by
    rcases lt_trichotomy x 0 with h | h | h
    · rw [Real.sign_of_neg h]; norm_num
    · rw [h, Real.sign_zero]; norm_num
    · rw [Real.sign_of_pos h]; norm_num
  have hargpos : (0 : ℝ) < MU * |x| + 1 := by
    rw [MU]; positivity
  have harg1 : (1 : ℝ) ≤ MU * |x| + 1 := by
    have h0 : (0 : ℝ) ≤ 255 * |x| := by positivity
    rw [MU]; linarith
  have harg256 : MU * |x| + 1 ≤ 256 := by
    rw [MU]; nlinarith [abs_nonneg x]
  have hlogle : Real.log (MU * |x| + 1) ≤ Real.log 256 :=
    (Real.log_le_log_iff hargpos (by norm_num)).mpr harg256
  have hlognn : 0 ≤ Real.log (MU * |x| + 1) := Real.log_nonneg harg1
  unfold ulaw
  rw [abs_div, abs_mul, abs_of_pos LOG_MU1_pos]
  have hnum : |Real.sign x| * |Real.log (MU * |x| + 1)| ≤ Real.log 256 := by
    rw [abs_of_nonneg hlognn]
    calc |Real.sign x| * Real.log (MU * |x| + 1) ≤ 1 * Real.log 256 :=
          mul_le_mul hsign hlogle hlognn (by norm_num)
      _ = Real.log 256 := one_mul _
  exact (div_le_div_right LOG_MU1_pos).mpr hnum

theorem exp_abs_le_256 (t : ℝ) (ht : |t| ≤ Real.log 256 / LOG_MU1) :
    Real.exp (|t| * LOG_MU1) ≤ 256 := by
  have h1 : |t| * LOG_MU1 ≤ Real.log 256 := (le_div_iff LOG_MU1_pos).mp ht
  calc Real.exp (|t| * LOG_MU1) ≤ Real.exp (Real.log 256) := Real.exp_le_exp.mpr h1
    _ = 256 := Real.exp_log (by norm_num)

theorem exp_diff_le (u v : ℝ) (huv : u ≤ v)
    (hE : Real.exp (v * LOG_MU1) ≤ 256) :
    Real.exp (v * LOG_MU1) - Real.exp (u * LOG_MU1) ≤ LOG_MU1 * 256 * (v - u) := by
  have ht : 0 ≤ (v - u) * LOG_MU1 := mul_nonneg (by linarith) LOG_MU1_pos.le
  have h1 := Real.add_one_le_exp (-((v - u) * LOG_MU1))
  have h2 : Real.exp (u * LOG_MU1) =
      Real.exp (v * LOG_MU1) * Real.exp (-((v - u) * LOG_MU1)) := by
    rw [← Real.exp_add]
    ring_nf
  have hvpos := Real.exp_pos (v * LOG_MU1)
  calc Real.exp (v * LOG_MU1) - Real.exp (u * LOG_MU1)
      = Real.exp (v * LOG_MU1) * (1 - Real.exp (-((v - u) * LOG_MU1))) := by
        rw [h2]; ring
    _ ≤ Real.exp (v * LOG_MU1) * ((v - u) * LOG_MU1) := by
        apply mul_le_mul_of_nonneg_left ?_ hvpos.le
        linarith
    _ ≤ 256 * ((v - u) * LOG_MU1) := mul_le_mul_of_nonneg_right hE ht
    _ = LOG_MU1 * 256 * (v - u) := by ring

theorem iulaw_sub_le_nonneg (u v : ℝ) (hu : 0 ≤ u) (huv : u ≤ v)
    (hE : Real.exp (v * LOG_MU1) ≤ 256) :
    |iulaw v - iulaw u| ≤ LOG_MU1 * 256 / 255 * (v - u) := by
  rw [iulaw_of_nonneg u hu, iulaw_of_nonneg v (hu.trans huv)]
  have hmono : Real.exp (u * LOG_MU1) ≤ Real.exp (v * LOG_MU1) :=
    Real.exp_le_exp.mpr (mul_le_mul_of_nonneg_right huv LOG_MU1_pos.le)
  have hd := exp_diff_le u v huv hE
  rw [abs_of_nonneg (by linarith)]
  linarith

theorem iulaw_lipschitz_ordered (a b : ℝ) (hba : b ≤ a)
    (ha : Real.exp (|a| * LOG_MU1) ≤ 256) (hb : Real.exp (|b| * LOG_MU1) ≤ 256) :
    |iulaw a - iulaw b| ≤ LOG_MU1 * 256 / 255 * (a - b) := by
  rcases le_or_lt 0 b with hb0 | hb0
  · have ha0 : 0 ≤ a := hb0.trans hba
    have haE : Real.exp (a * LOG_MU1) ≤ 256 := by rwa [abs_of_nonneg ha0] at ha
    exact iulaw_sub_le_nonneg b a hb0 hba haE
  · rcases le_or_lt 0 a with ha0 | ha0
    · have haE : Real.exp (a * LOG_MU1) ≤ 256 := by rwa [abs_of_nonneg ha0] at ha
      have hbE : Real.exp (-b * LOG_MU1) ≤ 256 := by rwa [abs_of_neg hb0] at hb
      have h1 := iulaw_sub_le_nonneg 0 a le_rfl ha0 haE
      have h2 := iulaw_sub_le_nonneg 0 (-b) le_rfl (by linarith) hbE
      rw [iulaw_zero, sub_zero] at h1 h2
      have hib := iulaw_neg_arg (-b)
      rw [neg_neg] at hib
      have hpos_a : 0 ≤ iulaw a := iulaw_nonneg a ha0
      have hpos_b : 0 ≤ iulaw (-b) := iulaw_nonneg (-b) (by linarith)
      rw [abs_of_nonneg hpos_a] at h1
      rw [abs_of_nonneg hpos_b] at h2
      rw [hib, sub_neg_eq_add, abs_of_nonneg (by linarith)]
      linarith
    · have h := iulaw_sub_le_nonneg (-a) (-b) (by linarith) (by linarith)
        (by rwa [abs_of_neg hb0] at hb)
      rw [iulaw_neg_arg, iulaw_neg_arg] at h
      rw [show -iulaw b - -iulaw a = -(iulaw b - iulaw a) by ring, abs_neg,
        abs_sub_comm] at h
      have heq : -b - -a = a - b := by ring
      rw [heq] at h
      exact h

theorem iulaw_lipschitz (a b : ℝ)
    (ha : Real.exp (|a| * LOG_MU1) ≤ 256) (hb : Real.exp (|b| * LOG_MU1) ≤ 256) :
    |iulaw a - iulaw b| ≤ LOG_MU1 * 256 / 255 * |a - b| := by
  rcases le_total b a with h | h
  · rw [abs_of_nonneg (sub_nonneg.mpr h)]
    exact iulaw_lipschitz_ordered a b h ha hb
  · rw [abs_sub_comm a b, abs_of_nonneg (sub_nonneg.mpr h),
      abs_sub_comm (iulaw a) (iulaw b)]
    exact iulaw_lipschitz_ordered b a h hb ha

/-- Taylor bound used by the C4 counterexample:
`exp (127 * LOG_MU1 / 1024) < 1.9895`. -/
theorem exp_taylor_127 : Real.exp (127 * LOG_MU1 / 1024) < 1.9895 := by
  rw [show LOG_MU1 = (5.5451774444795623 : ℝ) from rfl]
  set s : ℝ := 127 * (5.5451774444795623 : ℝ) / 1024 with hs
  have hs_abs : |s| ≤ 1 := by rw [abs_of_pos] <;> (rw [hs]; norm_num)
  have hb := Real.exp_bound hs_abs (by norm_num : 0 < 8)
  norm_num [Nat.factorial] at hb
  have h2 := (abs_le.mp hb).2
  have hsum : (∑ i ∈ Finset.range 8, s ^ i / (Nat.factorial i : ℝ)) +
      |s| ^ 8 * (9 / 322560) < 1.9895 := by
    rw [show |s| = s by rw [abs_of_pos]; rw [hs]; norm_num]
    simp only [Finset.sum_range_succ, Finset.sum_range_zero, Nat.factorial]
    rw [hs]
    norm_num
  linarith

/-- C4 counterexample: at `levels = 256` and `x = 1` the mu-law round trip
misses by far more than the claimed `2/levels = 1/128` resolution bound:
`quantize` emits symbol 255, which dequantizes to
`iulaw (127/128) ≈ 0.957`, an absolute error of about `0.043 > 1/128`
(inverse companding magnifies the midrise step near full scale). -/
theorem c4_counterexample :
    ulawQuantize 256 1 = 255 ∧
    2 / ((256 : ℕ) : ℝ) < |ulawDequantize 256 (ulawQuantize 256 1) - 1| := by
  have hy_eq : ulaw 1 = Real.log 256 / LOG_MU1 := by
    unfold ulaw
    rw [Real.sign_one, abs_one, MU]
    norm_num
  have hy_lo : (0.9999999996 : ℝ) ≤ ulaw 1 := by
    rw [hy_eq, le_div_iff LOG_MU1_pos, log_256_eq,
      show LOG_MU1 = (5.5451774444795623 : ℝ) from rfl]
    linarith [Real.log_two_gt_d9]
  have hy_hi : ulaw 1 ≤ (1.0000000004 : ℝ) := by
    rw [hy_eq, div_le_iff LOG_MU1_pos, log_256_eq,
      show LOG_MU1 = (5.5451774444795623 : ℝ) from rfl]
    linarith [Real.log_two_lt_d9]
  have hq : ulawQuantize 256 1 = 255 := by
    unfold ulawQuantize midrise
    have harg0 : (0 : ℝ) ≤ 0.5 * (ulaw 1 + 1) * (((256 : ℕ) : ℝ) - EPSILONs) := by
      rw [EPSILONs]; push_cast; nlinarith [hy_lo]
    rw [realTrunc, if_pos harg0, Int.floor_eq_iff]
    constructor
    · rw [EPSILONs]; push_cast; nlinarith [hy_lo]
    · rw [EPSILONs]; push_cast; nlinarith [hy_hi]
  have hdq : ulawDequantize 256 255 = iulaw (127 / 128 : ℝ) := by
    unfold ulawDequantize imidrise
    have harg : ((255 : ℤ) : ℝ) * 2 / ((256 : ℕ) : ℝ) - 1 = 127 / 128 := by
      push_cast; norm_num
    rw [harg]
  have hiu : iulaw (127 / 128 : ℝ) =
      (Real.exp (127 / 128 * LOG_MU1) - 1) / 255 := by
    rw [iulaw_of_nonneg _ (by norm_num)]
  have hexp_lt : Real.exp (127 / 128 * LOG_MU1) < 32513 / 128 := by
    have harg : (127 / 128 : ℝ) * LOG_MU1 = ((8 : ℕ) : ℝ) * (127 * LOG_MU1 / 1024) := by
      push_cast; ring
    rw [harg, Real.exp_nat_mul]
    calc Real.exp (127 * LOG_MU1 / 1024) ^ 8 < 1.9895 ^ 8 := by
          apply pow_lt_pow_left exp_taylor_127 (Real.exp_pos _).le
          norm_num
      _ < 32513 / 128 := by norm_num
  have hexp_ge1 : (1 : ℝ) ≤ Real.exp (127 / 128 * LOG_MU1) := by
    rw [show (1 : ℝ) = Real.exp 0 from (Real.exp_zero).symm]
    apply Real.exp_le_exp.mpr
    have := LOG_MU1_pos
    nlinarith
  refine ⟨hq, ?_⟩
  rw [hq, hdq, hiu]
  have hxhat_lt : (Real.exp (127 / 128 * LOG_MU1) - 1) / 255 < 127 / 128 := by
    rw [div_lt_iff (by norm_num : (0 : ℝ) < 255)]
    linarith [hexp_lt]
  have hxhat_pos : 0 ≤ (Real.exp (127 / 128 * LOG_MU1) - 1) / 255 := by
    apply div_nonneg ?_ (by norm_num)
    linarith [hexp_ge1]
  rw [abs_of_neg (by linarith : (Real.exp (127 / 128 * LOG_MU1) - 1) / 255 - 1 < 0)]
  push_cast
  linarith

/-- Shared ending of the round-trip bound: once the emitted symbol `q` is
known to lie in `[0, levels)` and its midrise decoding is within `2.01 /
levels` of the companded value, the Lipschitz bound on `iulaw` gives the
amplitude-domain error bound `12 / levels`. -/
theorem c4_aux (qLevels : ℕ) (x : ℝ) (hL : 1 ≤ qLevels) (hx : |x| ≤ 1)
    (q : ℤ) (hquant : ulawQuantize qLevels x = q) (hq0 : 0 ≤ q)
    (hqL : q < (qLevels : ℤ))
    (hcy : |imidrise qLevels q - ulaw x| ≤ 2.01 / (qLevels : ℝ)) :
    |ulawDequantize qLevels (ulawQuantize qLevels x) - x| ≤ 12 / (qLevels : ℝ) := by
  have hL1 : (1 : ℝ) ≤ (qLevels : ℝ) := by exact_mod_cast hL
  have hLpos : (0 : ℝ) < (qLevels : ℝ) := by linarith
  have hc_eq : imidrise qLevels q = (q : ℝ) * 2 / (qLevels : ℝ) - 1 := rfl
  have hq0R : (0 : ℝ) ≤ (q : ℝ) := by exact_mod_cast hq0
  have hqLR : (q : ℝ) ≤ (qLevels : ℝ) := by exact_mod_cast le_of_lt hqL
  have hcabs : |imidrise qLevels q| ≤ 1 := by
    rw [abs_le, hc_eq]
    constructor
    · have h1 : 0 ≤ (q : ℝ) * 2 / (qLevels : ℝ) :=
        div_nonneg (by linarith) hLpos.le
      linarith
    · have h1 : (q : ℝ) * 2 / (qLevels : ℝ) ≤ 2 := by
        rw [div_le_iff hLpos]; linarith
      linarith
  have hyabs := ulaw_abs_le x hx
  have hyE := exp_abs_le_256 (ulaw x) hyabs
  have hcE := exp_abs_le_256 (imidrise qLevels q) (le_trans hcabs one_le_ystar)
  have hdeq : ulawDequantize qLevels (ulawQuantize qLevels x) =
      iulaw (imidrise qLevels q) := by
    rw [hquant]
    rfl
  rw [hdeq]
  rw [show x = iulaw (ulaw x) from (iulaw_ulaw x).symm]
  have hlip := iulaw_lipschitz (imidrise qLevels q) (ulaw x) hcE hyE
  have hKpos : (0 : ℝ) ≤ LOG_MU1 * 256 / 255 :=
    div_nonneg (mul_nonneg LOG_MU1_pos.le (by norm_num)) (by norm_num)
  have h2 : LOG_MU1 * 256 / 255 * |imidrise qLevels q - ulaw x| ≤
      LOG_MU1 * 256 / 255 * (2.01 / (qLevels : ℝ)) :=
    mul_le_mul_of_nonneg_left hcy hKpos
  have h3 : LOG_MU1 * 256 / 255 * (2.01 / (qLevels : ℝ)) ≤ 12 / (qLevels : ℝ) := by
    rw [show LOG_MU1 = (5.5451774444795623 : ℝ) from rfl, ← mul_div_assoc]
    apply (div_le_div_right hLpos).mpr
    norm_num
  calc |iulaw (imidrise qLevels q) - iulaw (ulaw x)| ≤
      LOG_MU1 * 256 / 255 * |imidrise qLevels q - ulaw x| := hlip
    _ ≤ LOG_MU1 * 256 / 255 * (2.01 / (qLevels : ℝ)) := h2
    _ ≤ 12 / (qLevels : ℝ) := h3

/-- C4 (amended): for `1 ≤ levels ≤ 10^9` and every sample `x ∈ [-1, 1]`,
the mu-law quantizer's output symbol lies in `[0, levels)`, and the
round-trip error satisfies `|dequantize (quantize x) - x| ≤ 12 / levels`.
The claimed bound `2 / levels` is false (see the counterexample): inverse
companding magnifies the midrise step by up to
`(mu+1) * log(mu+1) / mu ≈ 5.57` near full scale, so the sharp bound is
about `11.2 / levels`.  (The cap `levels ≤ 10^9` is needed because the
hard-coded companding constant sits below `log 256` by about `1.75e-16`,
which makes `ulaw` overshoot `[-1, 1]` slightly; for astronomically large
`levels` the `1e-6` midrise guard no longer absorbs the overshoot.) -/
theorem c4_mu_law_roundtrip (qLevels : ℕ) (x : ℝ) (hL : 1 ≤ qLevels)
    (hL9 : qLevels ≤ 10 ^ 9) (hx : |x| ≤ 1) :
    0 ≤ ulawQuantize qLevels x ∧ ulawQuantize qLevels x < (qLevels : ℤ) ∧
    |ulawDequantize qLevels (ulawQuantize qLevels x) - x| ≤ 12 / (qLevels : ℝ) := by
  have hL1 : (1 : ℝ) ≤ (qLevels : ℝ) := by exact_mod_cast hL
  have hLpos : (0 : ℝ) < (qLevels : ℝ) := by linarith
  have hL9R : (qLevels : ℝ) ≤ 10 ^ 9 := by exact_mod_cast hL9
  have hyabs := ulaw_abs_le x hx
  have hy_hi : ulaw x ≤ 1 + 4e-17 :=
    le_trans (le_trans (le_abs_self _) hyabs) ystar_le
  have hy_lo : -(1 + 4e-17) ≤ ulaw x := by
    have h1 := neg_abs_le (ulaw x)
    have h2 := le_trans hyabs ystar_le
    linarith
  have hquant : ulawQuantize qLevels x =
      realTrunc (0.5 * (ulaw x + 1) * ((qLevels : ℝ) - EPSILONs)) := rfl
  have hεs : EPSILONs = (1e-6 : ℝ) := rfl
  rcases le_or_lt (-1) (ulaw x) with hy1 | hy1
  · -- companded value at least -1: the floor branch of `.long()`
    have harg0 : 0 ≤ 0.5 * (ulaw x + 1) * ((qLevels : ℝ) - EPSILONs) := by
      rw [hεs]
      apply mul_nonneg (mul_nonneg (by norm_num) (by linarith)) (by linarith)
    have htr : ulawQuantize qLevels x =
        ⌊0.5 * (ulaw x + 1) * ((qLevels : ℝ) - EPSILONs)⌋ := by
      rw [hquant, realTrunc, if_pos harg0]
    have hkey : (ulaw x + 1) * ((qLevels : ℝ) - 1e-6) ≤
        (2 + 4e-17) * ((qLevels : ℝ) - 1e-6) :=
      mul_le_mul_of_nonneg_right (by linarith) (by linarith)
    have hkey2 : (4e-17 : ℝ) * (qLevels : ℝ) ≤ 4e-17 * 10 ^ 9 :=
      mul_le_mul_of_nonneg_left hL9R (by norm_num)
    have hargL : 0.5 * (ulaw x + 1) * ((qLevels : ℝ) - EPSILONs) < (qLevels : ℝ) := by
      rw [hεs]
      linarith [hkey, hkey2]
    have hq0 : 0 ≤ ulawQuantize qLevels x := by
      rw [htr]
      exact Int.floor_nonneg.mpr harg0
    have hqL : ulawQuantize qLevels x < (qLevels : ℤ) := by
      rw [htr, Int.floor_lt]
      push_cast
      exact hargL
    refine ⟨hq0, hqL, ?_⟩
    apply c4_aux qLevels x hL hx _ rfl hq0 hqL
    -- distance between the decoded midrise value and the companded value
    have hfl_le : ((ulawQuantize qLevels x : ℤ) : ℝ) ≤
        0.5 * (ulaw x + 1) * ((qLevels : ℝ) - EPSILONs) := by
      rw [htr]; exact Int.floor_le _
    have hfl_gt : 0.5 * (ulaw x + 1) * ((qLevels : ℝ) - EPSILONs) - 1 <
        ((ulawQuantize qLevels x : ℤ) : ℝ) := by
      rw [htr]; exact Int.sub_one_lt_floor _
    have hc_eq : imidrise qLevels (ulawQuantize qLevels x) =
        ((ulawQuantize qLevels x : ℤ) : ℝ) * 2 / (qLevels : ℝ) - 1 := rfl
    have hLne : (qLevels : ℝ) ≠ 0 := ne_of_gt hLpos
    have hrw : ((ulawQuantize qLevels x : ℤ) : ℝ) * 2 / (qLevels : ℝ) - 1 - ulaw x =
        (2 * ((ulawQuantize qLevels x : ℤ) : ℝ) - (ulaw x + 1) * (qLevels : ℝ)) /
          (qLevels : ℝ) := by
      field_simp
      ring
    rw [hc_eq, hrw, abs_div, abs_of_pos hLpos]
    apply (div_le_div_right hLpos).mpr
    have hprod_nn : 0 ≤ (ulaw x + 1) * 1e-6 :=
      mul_nonneg (by linarith) (by norm_num)
    have hprod_le : (ulaw x + 1) * 1e-6 ≤ (2 + 4e-17) * 1e-6 :=
      mul_le_mul_of_nonneg_right (by linarith) (by norm_num)
    rw [abs_le]
    constructor
    · rw [hεs] at hfl_gt
      linarith [hfl_gt, hprod_le]
    · rw [hεs] at hfl_le
      linarith [hfl_le, hprod_nn]
  · -- companded value below -1 (possible only within 4e-17): argument is a
    -- tiny negative number, `.long()` truncates it to 0
    have hy1n : -(ulaw x + 1) ≤ 4e-17 := by linarith
    have hLe6 : (0 : ℝ) < (qLevels : ℝ) - 1e-6 := by linarith
    have harg_neg : 0.5 * (ulaw x + 1) * ((qLevels : ℝ) - EPSILONs) < 0 := by
      rw [hεs]
      have h1 : ulaw x + 1 < 0 := by linarith
      have h2 : (ulaw x + 1) * ((qLevels : ℝ) - 1e-6) < 0 :=
        mul_neg_of_neg_of_pos h1 hLe6
      linarith [h2]
    have hargsmall : -(0.5 * (ulaw x + 1) * ((qLevels : ℝ) - EPSILONs)) < 1 := by
      rw [hεs]
      have h3 : (-(ulaw x + 1)) * ((qLevels : ℝ) - 1e-6) ≤ 4e-17 * 10 ^ 9 :=
        mul_le_mul hy1n (by linarith) hLe6.le (by norm_num)
      linarith [h3]
    have htr : ulawQuantize qLevels x = 0 := by
      rw [hquant, realTrunc, if_neg (not_le.mpr harg_neg)]
      rw [Int.floor_eq_zero_iff.mpr ⟨by linarith, hargsmall⟩]
      ring
    have hq0 : 0 ≤ ulawQuantize qLevels x := by rw [htr]
    have hqL : ulawQuantize qLevels x < (qLevels : ℤ) := by
      rw [htr]
      exact_mod_cast Nat.lt_of_lt_of_le Nat.zero_lt_one hL
    refine ⟨hq0, hqL, ?_⟩
    apply c4_aux qLevels x hL hx _ rfl hq0 hqL
    rw [htr]
    have hc0 : imidrise qLevels (0 : ℤ) = -1 := by
      unfold imidrise
      push_cast
      rw [zero_mul, zero_div]
      ring
    rw [hc0]
    have habs : |(-1 : ℝ) - ulaw x| = -(ulaw x + 1) := by
      rw [abs_of_nonneg (by linarith : (0 : ℝ) ≤ -1 - ulaw x)]
      ring
    rw [habs]
    rw [le_div_iff hLpos]
    have h4 : -(ulaw x + 1) * (qLevels : ℝ) ≤ 4e-17 * 10 ^ 9 :=
      mul_le_mul hy1n hL9R hLpos.le (by norm_num)
    linarith [h4]

theorem c4_mu_law_roundtrip_witness :
    |(0 : ℝ)| ≤ 1 ∧ 0 ≤ ulawQuantize 256 0 ∧ ulawQuantize 256 0 < ((256 : ℕ) : ℤ) ∧
    |ulawDequantize 256 (ulawQuantize 256 0) - 0| ≤ 12 / ((256 : ℕ) : ℝ) := by
  have h := c4_mu_law_roundtrip 256 0 (by norm_num) (by norm_num) (by norm_num)
  exact ⟨by norm_num, h.1, h.2.1, h.2.2⟩

end SampleRNN
